import Mathlib

/-!
Shallow embedding of the sliding-window rate limiter (`class RateLimit`) and of
the statistics recorder (`class API`) from the repository's C++ source, together
with proofs of the specification claims about them.

Modelling conventions:
* The monotonic clock is externalised: each call to `tryAquireRequestTicket`
  receives the value that `get_time_slices_since_epoch()` would have returned
  (a natural number of 1 ms slices).  The C++ `std::chrono::steady_clock` is
  monotone, so every run of the program corresponds to a non-decreasing list of
  slice values, which is exactly how reachability is defined below.  Where a
  claim speaks about real elapsed seconds, time is modelled as a rational
  number of seconds and quantized by `sliceOf`, mirroring
  `get_time_slices_since_epoch` (the C++ `double` arithmetic is modelled
  exactly).
* The `std::mutex` serialises all calls, so every concurrent execution is
  observationally a sequential run over one monotone trace of slice values;
  claims about "any number of callers" are therefore settled over all such
  traces.
* C++ `int` fields (`mMaxRPS`, `mCurrentRPS`, the counters) are modelled as
  `Int`; the `uint64_t` slice values as `Nat`.  The `uint64_t` subtraction
  `current_slice - mLastUpdateSlice` agrees with truncated `Nat` subtraction
  whenever `mLastUpdateSlice ≤ current_slice`, which holds on every monotone
  trace; all theorems are stated over such traces.
-/

/-- Number of sub-second time slices per second (`N_TIME_SLICES` in the source). -/
def N_TIME_SLICES : Nat := 1000

/-- Size of the circular counter buffer (`HISTORY_LENGTH = N_TIME_SLICES + 1`). -/
def HISTORY_LENGTH : Nat := N_TIME_SLICES + 1

/-- Index of a slice in the circular buffer: `slice % HISTORY_LENGTH`. -/
def idx (c : Nat) : Fin HISTORY_LENGTH :=
  ⟨c % HISTORY_LENGTH, Nat.mod_lt _ (by decide)⟩

/-- State of the `RateLimit` class: the slice of the most recent call, the
configured maximum RPS, the circular buffer of per-slot admission counters and
the running total `mCurrentRPS`. -/
structure RateLimit where
  mLastUpdateSlice : Nat
  mMaxRPS : Int
  mRequestCounters : Fin HISTORY_LENGTH → Int
  mCurrentRPS : Int

/-- The constructor `RateLimit(int maxRPS)`: records the construction-time
slice, stores `maxRPS`, and value-initialises the buffer and `mCurrentRPS`
to zero. -/
def RateLimit.init (maxRPS : Int) (s0 : Nat) : RateLimit :=
  ⟨s0, maxRPS, fun _ => 0, 0⟩

/-- The slot-clearing loop of `tryAquireRequestTicket`:
`for (int i = (from_index + 1) % H; i != (to_index + 1) % H; i = (i + 1) % H)`.
Starting just after buffer position `i % HISTORY_LENGTH` it walks `k` positions
forward cyclically, zeroing each slot and subtracting its stored count from the
aggregate; `k` is the number of iterations the C++ loop performs, namely
`(to_index - from_index) mod HISTORY_LENGTH = (current_slice - mLastUpdateSlice)
mod HISTORY_LENGTH`, which under the guard `current_slice - mLastUpdateSlice <
HISTORY_LENGTH` is `current_slice - mLastUpdateSlice` itself. -/
def clearSlots : (Fin HISTORY_LENGTH → Int) → Int → Nat → Nat →
    (Fin HISTORY_LENGTH → Int) × Int
  | cnt, agg, _, 0 => (cnt, agg)
  | cnt, agg, i, Nat.succ k =>
      clearSlots (Function.update cnt (idx (i + 1)) 0) (agg - cnt (idx (i + 1))) (i + 1) k

/-- The reconciliation phase of `tryAquireRequestTicket` (the three-way branch
on lines 57–72 of the source): returns the buffer and aggregate after aging out
the slices elapsed since the previous call. -/
def RateLimit.reconcile (rl : RateLimit) (current_slice : Nat) :
    (Fin HISTORY_LENGTH → Int) × Int :=
  if current_slice = rl.mLastUpdateSlice then
    (rl.mRequestCounters, rl.mCurrentRPS)
  else if current_slice - rl.mLastUpdateSlice < HISTORY_LENGTH then
    clearSlots rl.mRequestCounters rl.mCurrentRPS rl.mLastUpdateSlice
      (current_slice - rl.mLastUpdateSlice)
  else
    (fun _ => 0, 0)

/-- One call to `RateLimit::tryAquireRequestTicket`, given the current slice:
reconcile the buffer, set `mLastUpdateSlice`, then admit (and record the
admission in slot `current_slice % HISTORY_LENGTH`) iff
`mCurrentRPS < mMaxRPS`.  Returns the boolean result and the new state. -/
def RateLimit.tryAquireRequestTicket (rl : RateLimit) (current_slice : Nat) :
    Bool × RateLimit :=
  if (rl.reconcile current_slice).2 < rl.mMaxRPS then
    (true, ⟨current_slice, rl.mMaxRPS,
      Function.update (rl.reconcile current_slice).1 (idx current_slice)
        ((rl.reconcile current_slice).1 (idx current_slice) + 1),
      (rl.reconcile current_slice).2 + 1⟩)
  else
    (false, ⟨current_slice, rl.mMaxRPS,
      (rl.reconcile current_slice).1, (rl.reconcile current_slice).2⟩)

/-- Run a sequence of `tryAquireRequestTicket` calls at the given slices,
collecting the boolean results and the final state. -/
def runSlices (rl : RateLimit) : List Nat → List Bool × RateLimit
  | [] => ([], rl)
  | c :: cs =>
      let step := rl.tryAquireRequestTicket c
      let rest := runSlices step.2 cs
      (step.1 :: rest.1, rest.2)

/-- Quantization of a clock reading (in seconds) into a slice number, as in
`get_time_slices_since_epoch`: `static_cast<uint64_t>(seconds * N_TIME_SLICES)`.
For the non-negative readings a monotonic clock produces, the C++ cast
truncates toward zero, i.e. takes the floor. -/
def sliceOf (t : ℚ) : Nat := (⌊t * (N_TIME_SLICES : ℚ)⌋).toNat

/-- States reachable from a freshly constructed limiter by some sequence of
calls whose slice values are non-decreasing and start no earlier than the
construction slice (the monotonic clock guarantees exactly this). -/
def Reachable (rl : RateLimit) : Prop :=
  ∃ (m : Int) (s0 : Nat) (cs : List Nat),
    List.Chain' (· ≤ ·) (s0 :: cs) ∧ (runSlices (RateLimit.init m s0) cs).2 = rl

/-- Slices of the calls that were admitted (returned `true`), read off a trace
of call slices paired with the boolean results. -/
def admSlices (cs : List Nat) (bs : List Bool) : List Nat :=
  ((cs.zip bs).filter (fun p => p.2)).map Prod.fst

/-- Times of the calls that were admitted (returned `true`). -/
def admTimes (ts : List ℚ) (bs : List Bool) : List ℚ :=
  ((ts.zip bs).filter (fun p => p.2)).map Prod.fst

/-! ### Basic facts about buffer indexing -/

lemma idx_eq_iff {a b : Nat} : idx a = idx b ↔ a % HISTORY_LENGTH = b % HISTORY_LENGTH := by
  constructor
  · intro h
    exact congrArg Fin.val h
  · intro h
    exact Fin.ext h

/-- Two slices less than a full buffer apart occupy different slots. -/
lemma idx_ne_of_span {a b : Nat} (h1 : a < b) (h2 : b ≤ a + N_TIME_SLICES) :
    idx a ≠ idx b := by
  intro h
  have hmod : a % HISTORY_LENGTH = b % HISTORY_LENGTH := idx_eq_iff.mp h
  have hdvd : HISTORY_LENGTH ∣ b - a := (Nat.modEq_iff_dvd' h1.le).mp hmod
  have hle : HISTORY_LENGTH ≤ b - a := Nat.le_of_dvd (by omega) hdvd
  have : HISTORY_LENGTH = N_TIME_SLICES + 1 := rfl
  omega

/-! ### The slot-clearing loop -/

/-- Closed form for the buffer produced by the clearing loop: the `k` slots
cyclically following position `i % HISTORY_LENGTH` are zeroed, every other
slot is untouched. -/
lemma clearSlots_fst (k : Nat) :
    ∀ (cnt : Fin HISTORY_LENGTH → Int) (agg : Int) (i : Nat) (j : Fin HISTORY_LENGTH),
      (clearSlots cnt agg i k).1 j =
        if ∃ m ∈ Finset.range k, idx (i + 1 + m) = j then 0 else cnt j := by
  induction k with
  | zero => intro cnt agg i j; simp [clearSlots]
  | succ k ih =>
      intro cnt agg i j
      rw [clearSlots, ih]
      by_cases hj : j = idx (i + 1)
      · subst hj
        have h0 : ∃ m ∈ Finset.range (k + 1), idx (i + 1 + m) = idx (i + 1) :=
          ⟨0, Finset.mem_range.mpr (Nat.succ_pos k), rfl⟩
        rw [if_pos h0]
        split
        · rfl
        · simp [Function.update]
      · have hupd : Function.update cnt (idx (i + 1)) 0 j = cnt j :=
          Function.update_noteq hj 0 cnt
        rw [hupd]
        have hcond : (∃ m ∈ Finset.range k, idx (i + 1 + 1 + m) = j) ↔
            (∃ m ∈ Finset.range (k + 1), idx (i + 1 + m) = j) := by
          constructor
          · rintro ⟨m, hm, rfl⟩
            have hm' := Finset.mem_range.mp hm
            exact ⟨m + 1, Finset.mem_range.mpr (by omega),
              by rw [show i + 1 + (m + 1) = i + 1 + 1 + m by omega]⟩
          · rintro ⟨m, hm, hmj⟩
            have hm' := Finset.mem_range.mp hm
            match m with
            | 0 => exact absurd hmj.symm (by simpa using hj)
            | Nat.succ m =>
                exact ⟨m, Finset.mem_range.mpr (by omega
                  ), by rw [show i + 1 + 1 + m = i + 1 + (m + 1) by omega]; exact hmj⟩
        split
        · rename_i h
          rw [if_pos (hcond.mp h)]
        · rename_i h
          rw [if_neg (fun hc => h (hcond.mpr hc))]

/-- Closed form for the aggregate produced by the clearing loop: as long as the
loop spans at most `N_TIME_SLICES` slots (so that it never revisits a slot),
it subtracts exactly the counts stored in the cleared slots. -/
lemma clearSlots_snd (k : Nat) (hk : k ≤ N_TIME_SLICES) :
    ∀ (cnt : Fin HISTORY_LENGTH → Int) (agg : Int) (i : Nat),
      (clearSlots cnt agg i k).2 = agg - ∑ m ∈ Finset.range k, cnt (idx (i + 1 + m)) := by
  induction k with
  | zero => intro cnt agg i; simp [clearSlots]
  | succ k ih =>
      intro cnt agg i
      rw [clearSlots, ih (by omega)]
      have hterm : ∀ m ∈ Finset.range k,
          Function.update cnt (idx (i + 1)) 0 (idx (i + 1 + 1 + m)) =
            cnt (idx (i + 1 + 1 + m)) := by
        intro m hm
        have hm' := Finset.mem_range.mp hm
        exact Function.update_noteq
          (Ne.symm (idx_ne_of_span (by omega) (by omega))) 0 cnt
      rw [Finset.sum_congr rfl hterm]
      have hsum : ∑ m ∈ Finset.range (k + 1), cnt (idx (i + 1 + m)) =
          (∑ m ∈ Finset.range k, cnt (idx (i + 1 + 1 + m))) + cnt (idx (i + 1)) := by
        rw [Finset.sum_range_succ' (fun m => cnt (idx (i + 1 + m))) k]
        congr 1
        exact Finset.sum_congr rfl (fun m _ => by
          rw [show i + 1 + (m + 1) = i + 1 + 1 + m from by omega])
      rw [hsum]
      ring

/-- The clearing loop is the identity on an all-zero buffer. -/
lemma clearSlots_clean (k : Nat) :
    ∀ (cnt : Fin HISTORY_LENGTH → Int) (agg : Int) (i : Nat),
      (∀ j, cnt j = 0) → clearSlots cnt agg i k = (cnt, agg) := by
  induction k with
  | zero => intro cnt agg i _; rfl
  | succ k ih =>
      intro cnt agg i hz
      rw [clearSlots]
      have h1 : Function.update cnt (idx (i + 1)) 0 = cnt := by
        rw [show (0 : Int) = cnt (idx (i + 1)) from (hz _).symm]
        exact Function.update_eq_self _ _
      rw [h1, hz (idx (i + 1)), sub_zero]
      exact ih cnt agg (i + 1) hz

/-- The clearing loop preserves the aggregate-equals-sum invariant and the
non-negativity of the counters, and never increases the aggregate. -/
lemma clearSlots_invariant (k : Nat) :
    ∀ (cnt : Fin HISTORY_LENGTH → Int) (agg : Int) (i : Nat),
      agg = (∑ j, cnt j) → (∀ j, 0 ≤ cnt j) →
      ((clearSlots cnt agg i k).2 = ∑ j, (clearSlots cnt agg i k).1 j) ∧
      (∀ j, 0 ≤ (clearSlots cnt agg i k).1 j) ∧
      (clearSlots cnt agg i k).2 ≤ agg := by
  induction k with
  | zero => intro cnt agg i hsum hpos; exact ⟨hsum, hpos, le_refl _⟩
  | succ k ih =>
      intro cnt agg i hsum hpos
      rw [clearSlots]
      have hsum' : agg - cnt (idx (i + 1)) = ∑ j, Function.update cnt (idx (i + 1)) 0 j := by
        rw [Finset.sum_update_of_mem (Finset.mem_univ _), ← Finset.erase_eq]
        rw [← Finset.add_sum_erase _ cnt (Finset.mem_univ (idx (i + 1)))] at hsum
        omega
      have hpos' : ∀ j, 0 ≤ Function.update cnt (idx (i + 1)) 0 j := by
        intro j
        by_cases hj : j = idx (i + 1)
        · subst hj; simp
        · rw [Function.update_noteq hj]; exact hpos j
      obtain ⟨h1, h2, h3⟩ := ih _ _ (i + 1) hsum' hpos'
      exact ⟨h1, h2, le_trans h3 (by have := hpos (idx (i + 1)); omega)⟩

/-! ### Reconciliation -/

lemma reconcile_same (rl : RateLimit) (c : Nat) (h : c = rl.mLastUpdateSlice) :
    rl.reconcile c = (rl.mRequestCounters, rl.mCurrentRPS) := by
  rw [RateLimit.reconcile, if_pos h]

lemma reconcile_near (rl : RateLimit) (c : Nat) (h1 : rl.mLastUpdateSlice < c)
    (h2 : c - rl.mLastUpdateSlice < HISTORY_LENGTH) :
    rl.reconcile c =
      clearSlots rl.mRequestCounters rl.mCurrentRPS rl.mLastUpdateSlice
        (c - rl.mLastUpdateSlice) := by
  rw [RateLimit.reconcile, if_neg (by omega), if_pos h2]

lemma reconcile_far (rl : RateLimit) (c : Nat)
    (h : rl.mLastUpdateSlice + HISTORY_LENGTH ≤ c) :
    rl.reconcile c = (fun _ => 0, 0) := by
  have hH : HISTORY_LENGTH = N_TIME_SLICES + 1 := rfl
  rw [RateLimit.reconcile, if_neg (by omega), if_neg (by omega)]

/-- On a state whose buffer is all zero and whose aggregate is zero,
reconciliation changes nothing, regardless of which branch runs. -/
lemma reconcile_clean (rl : RateLimit) (c : Nat)
    (hz : ∀ j, rl.mRequestCounters j = 0) (ha : rl.mCurrentRPS = 0) :
    rl.reconcile c = (rl.mRequestCounters, 0) := by
  rw [RateLimit.reconcile]
  split
  · rw [ha]
  · split
    · rw [clearSlots_clean _ _ _ _ hz, ha]
    · exact Prod.ext (funext fun j => (hz j).symm) rfl

/-- Both branches of the admission test set `mLastUpdateSlice` to the current
slice; the final `mLastUpdateSlice` of a run is therefore the last call slice. -/
lemma runSlices_last (cs : List Nat) :
    ∀ (rl : RateLimit),
      (runSlices rl cs).2.mLastUpdateSlice = cs.getLastD rl.mLastUpdateSlice := by
  induction cs with
  | nil => intro rl; rfl
  | cons c cs ih =>
      intro rl
      rw [runSlices]
      rw [ih]
      have hstep : (rl.tryAquireRequestTicket c).2.mLastUpdateSlice = c := by
        rw [RateLimit.tryAquireRequestTicket]
        split <;> rfl
      rw [List.getLastD_cons, hstep]

/-- Splitting a run at an intermediate point. -/
lemma runSlices_append (l1 l2 : List Nat) :
    ∀ (rl : RateLimit),
      runSlices rl (l1 ++ l2) =
        ((runSlices rl l1).1 ++ (runSlices (runSlices rl l1).2 l2).1,
          (runSlices (runSlices rl l1).2 l2).2) := by
  induction l1 with
  | nil => intro rl; rfl
  | cons c l1 ih =>
      intro rl
      rw [List.cons_append, runSlices, runSlices, ih]
      rfl

/-! ### The sliding-window invariant -/

/-- Admission slices still inside the trailing `HISTORY_LENGTH`-slice window
ending at slice `c`. -/
def recentP (c : Nat) : Nat → Bool := fun a => decide (c ≤ a + N_TIME_SLICES)

/-- Recent admission slices stored in buffer slot `j`. -/
def slotP (c : Nat) (j : Fin HISTORY_LENGTH) : Nat → Bool :=
  fun a => decide (idx a = j ∧ c ≤ a + N_TIME_SLICES)

/-- Slices lying in the window of `HISTORY_LENGTH` consecutive slices starting
at `w`; a one-second window of real time always fits inside such a window. -/
def winP (w : Nat) : Nat → Bool := fun a => decide (w ≤ a ∧ a ≤ w + N_TIME_SLICES)

/-- Counting the recent admissions slot by slot partitions them. -/
lemma countP_recent_partition (c : Nat) (A : List Nat) :
    A.countP (recentP c) = ∑ j, A.countP (slotP c j) := by
  induction A with
  | nil => simp
  | cons a A ih =>
      rw [List.countP_cons]
      have hcons : ∀ j : Fin HISTORY_LENGTH, List.countP (slotP c j) (a :: A) =
          List.countP (slotP c j) A +
            if idx a = j ∧ c ≤ a + N_TIME_SLICES then 1 else 0 := by
        intro j
        rw [List.countP_cons]
        congr 1
        simp [slotP]
      have hlast : (if recentP c a then (1 : Nat) else 0) =
          ∑ j : Fin HISTORY_LENGTH,
            if idx a = j ∧ c ≤ a + N_TIME_SLICES then (1 : Nat) else 0 := by
        by_cases hr : c ≤ a + N_TIME_SLICES
        · have heq : ∀ j : Fin HISTORY_LENGTH,
              (if idx a = j ∧ c ≤ a + N_TIME_SLICES then (1 : Nat) else 0) =
                if idx a = j then 1 else 0 := fun j => by simp [hr]
          rw [Finset.sum_congr rfl (fun j _ => heq j), Finset.sum_ite_eq,
            if_pos (Finset.mem_univ (idx a))]
          simp [recentP, hr]
        · have heq : ∀ j : Fin HISTORY_LENGTH,
              (if idx a = j ∧ c ≤ a + N_TIME_SLICES then (1 : Nat) else 0) = 0 :=
            fun j => by simp [hr]
          rw [Finset.sum_congr rfl (fun j _ => heq j), Finset.sum_const_zero]
          simp [recentP, hr]
      simp only [hcons]
      rw [Finset.sum_add_distrib, ih, hlast]

/-- The run invariant tying a limiter state to the list `A` of slices of all
admissions granted so far: every admission is no later than the last update;
every buffer slot dominates the number of recent admissions stored in it;
the aggregate equals the buffer sum; counters are non-negative; and the
aggregate never exceeds `max mMaxRPS 0`. -/
def WInv (s : RateLimit) (A : List Nat) : Prop :=
  (∀ a ∈ A, a ≤ s.mLastUpdateSlice) ∧
  (∀ j, (A.countP (slotP s.mLastUpdateSlice j) : Int) ≤ s.mRequestCounters j) ∧
  s.mCurrentRPS = (∑ j, s.mRequestCounters j) ∧
  (∀ j, 0 ≤ s.mRequestCounters j) ∧
  s.mCurrentRPS ≤ max s.mMaxRPS 0

lemma WInv_init (m : Int) (s0 : Nat) : WInv (RateLimit.init m s0) [] := by
  refine ⟨by simp, fun j => by simp [RateLimit.init], by simp [RateLimit.init],
    fun j => le_refl 0, by simp [RateLimit.init]⟩

/-- Reconciliation respects the invariant: afterwards every slot still
dominates its recent admissions (now measured at the new slice `c`), the
aggregate equals the buffer sum, counters stay non-negative, and the
aggregate has not grown. -/
lemma reconcile_WInv (s : RateLimit) (A : List Nat) (c : Nat)
    (hinv : WInv s A) (hc : s.mLastUpdateSlice ≤ c) :
    (∀ j, (A.countP (slotP c j) : Int) ≤ (s.reconcile c).1 j) ∧
    (s.reconcile c).2 = (∑ j, (s.reconcile c).1 j) ∧
    (∀ j, 0 ≤ (s.reconcile c).1 j) ∧
    (s.reconcile c).2 ≤ s.mCurrentRPS := by
  obtain ⟨hA, hslot, hsum, hpos, hmax⟩ := hinv
  by_cases h1 : c = s.mLastUpdateSlice
  · rw [reconcile_same s c h1]
    subst h1
    exact ⟨hslot, hsum, hpos, le_refl _⟩
  · by_cases h2 : c - s.mLastUpdateSlice < HISTORY_LENGTH
    · have hlt : s.mLastUpdateSlice < c := by omega
      rw [reconcile_near s c hlt h2]
      obtain ⟨g1, g2, g3⟩ := clearSlots_invariant (c - s.mLastUpdateSlice)
        s.mRequestCounters s.mCurrentRPS s.mLastUpdateSlice hsum hpos
      refine ⟨?_, g1, g2, g3⟩
      intro j
      rw [clearSlots_fst]
      split
      · rename_i hzero
        obtain ⟨m, hm, hmj⟩ := hzero
        have hm' := Finset.mem_range.mp hm
        have hH : HISTORY_LENGTH = N_TIME_SLICES + 1 := rfl
        have hcount : A.countP (slotP c j) = 0 := by
          rw [List.countP_eq_zero]
          intro a ha
          simp only [slotP, decide_eq_true_eq, not_and]
          intro haj har
          have ha' := hA a ha
          have hne : idx a ≠ idx (s.mLastUpdateSlice + 1 + m) :=
            idx_ne_of_span (by omega) (by omega)
          exact hne (by rw [haj, ← hmj])
        rw [hcount]
        simp
      · rename_i hkeep
        have hmono : A.countP (slotP c j) ≤ A.countP (slotP s.mLastUpdateSlice j) := by
          refine List.countP_mono_left (fun a _ h => ?_)
          simp only [slotP, decide_eq_true_eq] at h ⊢
          exact ⟨h.1, by omega⟩
        calc (A.countP (slotP c j) : Int)
            ≤ (A.countP (slotP s.mLastUpdateSlice j) : Int) := by exact_mod_cast hmono
          _ ≤ s.mRequestCounters j := hslot j
    · have hfar : s.mLastUpdateSlice + HISTORY_LENGTH ≤ c := by omega
      rw [reconcile_far s c hfar]
      have hH : HISTORY_LENGTH = N_TIME_SLICES + 1 := rfl
      refine ⟨?_, by simp, fun j => le_refl 0, ?_⟩
      · intro j
        have hcount : A.countP (slotP c j) = 0 := by
          rw [List.countP_eq_zero]
          intro a ha
          simp only [slotP, decide_eq_true_eq, not_and]
          intro _ har
          have ha' := hA a ha
          omega
        rw [hcount]
        simp
      · rw [hsum]
        exact Finset.sum_nonneg (fun j _ => hpos j)

/-- Unfolding of a successful call. -/
lemma tryAquire_pos (rl : RateLimit) (c : Nat) (h : (rl.reconcile c).2 < rl.mMaxRPS) :
    rl.tryAquireRequestTicket c = (true, ⟨c, rl.mMaxRPS,
      Function.update (rl.reconcile c).1 (idx c) ((rl.reconcile c).1 (idx c) + 1),
      (rl.reconcile c).2 + 1⟩) := by
  rw [RateLimit.tryAquireRequestTicket, if_pos h]

/-- Unfolding of a denied call. -/
lemma tryAquire_neg (rl : RateLimit) (c : Nat) (h : ¬ (rl.reconcile c).2 < rl.mMaxRPS) :
    rl.tryAquireRequestTicket c =
      (false, ⟨c, rl.mMaxRPS, (rl.reconcile c).1, (rl.reconcile c).2⟩) := by
  rw [RateLimit.tryAquireRequestTicket, if_neg h]

lemma admSlices_nil (bs : List Bool) : admSlices [] bs = [] := rfl

lemma admSlices_cons (c : Nat) (cs : List Nat) (b : Bool) (bs : List Bool) :
    admSlices (c :: cs) (b :: bs) = (if b then [c] else []) ++ admSlices cs bs := by
  rw [admSlices, admSlices, List.zip_cons_cons]
  cases b <;> simp

/-- Sum of an updated buffer. -/
lemma sum_update_add_one (cnt : Fin HISTORY_LENGTH → Int) (j0 : Fin HISTORY_LENGTH) :
    (∑ j, Function.update cnt j0 (cnt j0 + 1) j) = (∑ j, cnt j) + 1 := by
  rw [Finset.sum_update_of_mem (Finset.mem_univ _), ← Finset.erase_eq]
  rw [← Finset.add_sum_erase _ cnt (Finset.mem_univ j0)]
  ring


/-- One call preserves the window invariant; moreover a successful call
certifies that the recent-admission count was strictly below the limit. -/
lemma step_WInv (s : RateLimit) (A : List Nat) (c : Nat) (b : Bool) (s' : RateLimit)
    (hstep : s.tryAquireRequestTicket c = (b, s'))
    (hinv : WInv s A) (hc : s.mLastUpdateSlice ≤ c) :
    WInv s' (A ++ if b then [c] else []) ∧
    (b = true → (A.countP (recentP c) : Int) + 1 ≤ s.mMaxRPS) ∧
    s'.mMaxRPS = s.mMaxRPS ∧ s'.mLastUpdateSlice = c := by
  obtain ⟨r1, r2, r3, r4⟩ := reconcile_WInv s A c hinv hc
  obtain ⟨hA, hslot, hsum, hpos, hmax⟩ := hinv
  have hrec_le : (A.countP (recentP c) : Int) ≤ (s.reconcile c).2 := by
    rw [countP_recent_partition, r2, Nat.cast_sum]
    exact Finset.sum_le_sum (fun j _ => r1 j)
  by_cases hadm : (s.reconcile c).2 < s.mMaxRPS
  · rw [tryAquire_pos s c hadm] at hstep
    have hb : true = b := congrArg Prod.fst hstep
    have hs' : (⟨c, s.mMaxRPS,
        Function.update (s.reconcile c).1 (idx c) ((s.reconcile c).1 (idx c) + 1),
        (s.reconcile c).2 + 1⟩ : RateLimit) = s' := congrArg Prod.snd hstep
    subst hb
    refine ⟨?_, fun _ => by omega, ?_, ?_⟩
    · rw [← hs']
      refine ⟨?_, ?_, ?_, ?_, ?_⟩
      · show ∀ a ∈ A ++ [c], a ≤ c
        intro a ha
        rcases List.mem_append.mp ha with h | h
        · exact le_trans (hA a h) hc
        · simp only [List.mem_singleton] at h
          omega
      · show ∀ j, (List.countP (slotP c j) (A ++ [c]) : Int) ≤
            Function.update (s.reconcile c).1 (idx c) ((s.reconcile c).1 (idx c) + 1) j
        intro j
        rw [List.countP_append]
        by_cases hj : j = idx c
        · subst hj
          have hone : List.countP (slotP c (idx c)) [c] = 1 := by
            simp [slotP, List.countP_cons]
          rw [hone, Function.update_same]
          push_cast
          have := r1 (idx c)
          omega
        · have hzero : List.countP (slotP c j) [c] = 0 := by
            simp only [List.countP_cons, List.countP_nil, slotP, Nat.zero_add]
            rw [if_neg]
            simp only [decide_eq_true_eq, not_and]
            intro hj'
            exact absurd hj'.symm hj
          rw [hzero, Function.update_noteq hj, Nat.add_zero]
          exact r1 j
      · show (s.reconcile c).2 + 1 = ∑ j,
            Function.update (s.reconcile c).1 (idx c) ((s.reconcile c).1 (idx c) + 1) j
        rw [sum_update_add_one, ← r2]
      · show ∀ j, 0 ≤
            Function.update (s.reconcile c).1 (idx c) ((s.reconcile c).1 (idx c) + 1) j
        intro j
        by_cases hj : j = idx c
        · subst hj
          rw [Function.update_same]
          have := r3 (idx c)
          omega
        · rw [Function.update_noteq hj]
          exact r3 j
      · show (s.reconcile c).2 + 1 ≤ max s.mMaxRPS 0
        exact le_trans hadm (le_max_left _ _)
    · rw [← hs']
    · rw [← hs']
  · rw [tryAquire_neg s c hadm] at hstep
    have hb : false = b := congrArg Prod.fst hstep
    have hs' : (⟨c, s.mMaxRPS, (s.reconcile c).1, (s.reconcile c).2⟩ : RateLimit) = s' :=
      congrArg Prod.snd hstep
    subst hb
    refine ⟨?_, fun hfalse => absurd hfalse (by simp), ?_, ?_⟩
    · rw [← hs']
      have happ : A ++ (if false = true then [c] else []) = A := List.append_nil A
      rw [happ]
      exact ⟨fun a ha => le_trans (hA a ha) hc, r1, r2, r3, le_trans r4 hmax⟩
    · rw [← hs']
    · rw [← hs']

lemma runSlices_cons (rl : RateLimit) (c : Nat) (cs : List Nat) :
    runSlices rl (c :: cs) =
      ((rl.tryAquireRequestTicket c).1 :: (runSlices (rl.tryAquireRequestTicket c).2 cs).1,
        (runSlices (rl.tryAquireRequestTicket c).2 cs).2) := rfl

/-- Running any monotone trace preserves the window invariant, preserves the
configured limit, and keeps every window count below the limit. -/
lemma run_WInv (cs : List Nat) :
    ∀ (s : RateLimit) (A : List Nat),
      WInv s A → List.Chain' (· ≤ ·) (s.mLastUpdateSlice :: cs) →
      WInv (runSlices s cs).2 (A ++ admSlices cs (runSlices s cs).1) ∧
      (runSlices s cs).2.mMaxRPS = s.mMaxRPS ∧
      (∀ w, (A.countP (winP w) : Int) ≤ max s.mMaxRPS 0 →
        ((A ++ admSlices cs (runSlices s cs).1).countP (winP w) : Int) ≤
          max s.mMaxRPS 0) := by
  induction cs with
  | nil =>
      intro s A hinv _
      refine ⟨?_, rfl, fun w hw => ?_⟩
      · show WInv s (A ++ [])
        rw [List.append_nil]
        exact hinv
      · show ((A ++ []).countP (winP w) : Int) ≤ max s.mMaxRPS 0
        rw [List.append_nil]
        exact hw
  | cons c cs ih =>
      intro s A hinv hchain
      rw [List.chain'_cons] at hchain
      obtain ⟨hc, hchain'⟩ := hchain
      obtain ⟨hinv', hloc, hmaxeq, hlast⟩ :=
        step_WInv s A c (s.tryAquireRequestTicket c).1 (s.tryAquireRequestTicket c).2
          rfl hinv hc
      have hchain'' :
          List.Chain' (· ≤ ·) ((s.tryAquireRequestTicket c).2.mLastUpdateSlice :: cs) := by
        rw [hlast]; exact hchain'
      obtain ⟨g1, g2, g3⟩ := ih (s.tryAquireRequestTicket c).2
        (A ++ if (s.tryAquireRequestTicket c).1 then [c] else []) hinv' hchain''
      rw [hmaxeq] at g2 g3
      rw [runSlices_cons, admSlices_cons]
      refine ⟨?_, g2, ?_⟩
      · rw [← List.append_assoc]
        exact g1
      · intro w hw
        rw [← List.append_assoc]
        refine g3 w ?_
        cases hb : (s.tryAquireRequestTicket c).1 with
        | false =>
            simpa using hw
        | true =>
            have hloc' := hloc hb
            have hcite : (if true = true then [c] else ([] : List Nat)) = [c] := rfl
            rw [hcite, List.countP_append]
            have hcount1 : List.countP (winP w) [c] = if w ≤ c ∧ c ≤ w + N_TIME_SLICES
                then 1 else 0 := by
              simp [winP, List.countP_cons]
        
            by_cases hwc : w ≤ c ∧ c ≤ w + N_TIME_SLICES
            · rw [hcount1, if_pos hwc]
              have hmono : A.countP (winP w) ≤ A.countP (recentP c) := by
                refine List.countP_mono_left (fun a _ h => ?_)
                simp only [winP, recentP, decide_eq_true_eq] at h ⊢
                omega
              push_cast
              have : (A.countP (winP w) : Int) ≤ A.countP (recentP c) := by
                exact_mod_cast hmono
              have hle : (A.countP (winP w) : Int) + 1 ≤ s.mMaxRPS := by omega
              exact le_trans hle (le_max_left _ _)
            · rw [hcount1, if_neg hwc]
              simpa using hw

/-- Every reachable state satisfies the window invariant for some admission
history. -/
lemma Reachable_WInv (rl : RateLimit) (h : Reachable rl) : ∃ A, WInv rl A := by
  obtain ⟨m, s0, cs, hchain, hrun⟩ := h
  obtain ⟨hinv, -, -⟩ := run_WInv cs (RateLimit.init m s0) [] (WInv_init m s0) hchain
  exact ⟨_, hrun ▸ hinv⟩

/-- Core window bound, at slice granularity: over any monotone trace from a
fresh limiter, any window of `HISTORY_LENGTH` consecutive slices contains at
most `max mMaxRPS 0` admissions. -/
lemma window_bound_slices (m : Int) (s0 : Nat) (cs : List Nat)
    (hchain : List.Chain' (· ≤ ·) (s0 :: cs)) (w : Nat) :
    ((admSlices cs (runSlices (RateLimit.init m s0) cs).1).countP (winP w) : Int) ≤
      max m 0 := by
  obtain ⟨-, -, g3⟩ := run_WInv cs (RateLimit.init m s0) [] (WInv_init m s0) hchain
  have h0 : (List.countP (winP w) ([] : List Nat) : Int) ≤ max m 0 := by
    simp only [List.countP_nil, Nat.cast_zero]
    exact le_max_right m 0
  have := g3 w h0
  simpa using this

/-! ### From rational clock readings to slices -/

lemma sliceOf_mono {t t' : ℚ} (h : t ≤ t') : sliceOf t ≤ sliceOf t' := by
  have hfl : ⌊t * (N_TIME_SLICES : ℚ)⌋ ≤ ⌊t' * (N_TIME_SLICES : ℚ)⌋ :=
    Int.floor_le_floor (mul_le_mul_of_nonneg_right h (by norm_num))
  exact Int.toNat_le_toNat hfl

/-- One second of real time spans at most `N_TIME_SLICES` slice boundaries. -/
lemma sliceOf_add_one_le (T : ℚ) : sliceOf (T + 1) ≤ sliceOf T + N_TIME_SLICES := by
  unfold sliceOf
  have h1 : (T + 1) * (N_TIME_SLICES : ℚ) =
      T * (N_TIME_SLICES : ℚ) + ((N_TIME_SLICES : Int) : ℚ) := by
    push_cast
    ring
  rw [h1, Int.floor_add_int]
  have : (N_TIME_SLICES : Int) = 1000 := rfl
  omega

lemma chain_map_sliceOf (t0 : ℚ) (ts : List ℚ) (h : List.Chain' (· ≤ ·) (t0 :: ts)) :
    List.Chain' (· ≤ ·) (sliceOf t0 :: ts.map sliceOf) := by
  have hrw : (sliceOf t0 :: ts.map sliceOf) = (t0 :: ts).map sliceOf := rfl
  rw [hrw, List.chain'_map]
  exact List.Chain'.imp (fun a b hab => sliceOf_mono hab) h

lemma admTimes_cons (t : ℚ) (ts : List ℚ) (b : Bool) (bs : List Bool) :
    admTimes (t :: ts) (b :: bs) = (if b then [t] else []) ++ admTimes ts bs := by
  rw [admTimes, admTimes, List.zip_cons_cons]
  cases b <;> simp

lemma admSlices_map_sliceOf (ts : List ℚ) :
    ∀ (bs : List Bool), admSlices (ts.map sliceOf) bs = (admTimes ts bs).map sliceOf := by
  induction ts with
  | nil => intro bs; rfl
  | cons t ts ih =>
      intro bs
      cases bs with
      | nil => rfl
      | cons b bs =>
          show admSlices (sliceOf t :: ts.map sliceOf) (b :: bs) = _
          rw [admSlices_cons, admTimes_cons, List.map_append, ih bs]
          cases b <;> rfl

/-! ### Exact burst behaviour within one window -/

/-- State of the limiter after the first `p` calls of a burst that started at
slice `c1` and has stayed within one window: the aggregate is exactly
`min p K`, it equals the buffer sum, counters are non-negative, and every
non-zero slot stores admissions from slices between `c1` and the last call. -/
def BInv (s : RateLimit) (K : Int) (p : Nat) (c1 : Nat) : Prop :=
  s.mMaxRPS = K ∧
  s.mCurrentRPS = min (p : Int) K ∧
  s.mCurrentRPS = (∑ j, s.mRequestCounters j) ∧
  (∀ j, 0 ≤ s.mRequestCounters j) ∧
  (∀ j, s.mRequestCounters j ≠ 0 →
    ∃ a, c1 ≤ a ∧ a ≤ s.mLastUpdateSlice ∧ idx a = j) ∧
  c1 ≤ s.mLastUpdateSlice

/-- Within one window, reconciliation never clears a non-zero slot, so it is
the identity on the buffer and the aggregate: stated for any state whose
non-zero slots all store admissions from slices between `c1` and the last
update. -/
lemma reconcile_supported (s : RateLimit) (c1 : Nat) (c : Nat)
    (hsupp : ∀ j, s.mRequestCounters j ≠ 0 →
      ∃ a, c1 ≤ a ∧ a ≤ s.mLastUpdateSlice ∧ idx a = j)
    (hc1 : c1 ≤ s.mLastUpdateSlice)
    (hc : s.mLastUpdateSlice ≤ c) (hwin : c ≤ c1 + N_TIME_SLICES) :
    s.reconcile c = (s.mRequestCounters, s.mCurrentRPS) := by
  have hN : N_TIME_SLICES = 1000 := rfl
  have hH : HISTORY_LENGTH = N_TIME_SLICES + 1 := rfl
  by_cases h1 : c = s.mLastUpdateSlice
  · exact reconcile_same s c h1
  · have hlt : s.mLastUpdateSlice < c := by omega
    have h2 : c - s.mLastUpdateSlice < HISTORY_LENGTH := by omega
    rw [reconcile_near s c hlt h2]
    have hzero : ∀ mm, mm < c - s.mLastUpdateSlice →
        s.mRequestCounters (idx (s.mLastUpdateSlice + 1 + mm)) = 0 := by
      intro mm hmm
      by_contra hne
      obtain ⟨a, ha1, ha2, ha3⟩ := hsupp _ hne
      have hane : idx a ≠ idx (s.mLastUpdateSlice + 1 + mm) :=
        idx_ne_of_span (by omega) (by omega)
      exact hane ha3
    refine Prod.ext (funext fun j => ?_) ?_
    · show (clearSlots _ _ _ _).1 j = s.mRequestCounters j
      rw [clearSlots_fst]
      split
      · rename_i hcond
        obtain ⟨mm, hmm, hmj⟩ := hcond
        rw [← hmj]
        exact (hzero mm (Finset.mem_range.mp hmm)).symm
      · rfl
    · show (clearSlots _ _ _ _).2 = s.mCurrentRPS
      rw [clearSlots_snd _ (by omega)]
      rw [Finset.sum_congr rfl
        (fun mm hmm => hzero mm (Finset.mem_range.mp hmm)), Finset.sum_const_zero,
        sub_zero]

/-- Specialisation of `reconcile_supported` to the burst invariant. -/
lemma reconcile_BInv (s : RateLimit) (K : Int) (p : Nat) (c1 : Nat) (c : Nat)
    (hinv : BInv s K p c1) (hc : s.mLastUpdateSlice ≤ c)
    (hwin : c ≤ c1 + N_TIME_SLICES) :
    s.reconcile c = (s.mRequestCounters, s.mCurrentRPS) := by
  obtain ⟨hK, hagg, hsum, hpos, hsupp, hc1⟩ := hinv
  exact reconcile_supported s c1 c hsupp hc1 hc hwin

/-- Within one window, the `p`-th call of a burst succeeds exactly when
`p < K`, and the burst invariant is maintained. -/
lemma step_BInv (s : RateLimit) (K : Int) (p : Nat) (c1 : Nat) (c : Nat)
    (hinv : BInv s K p c1) (hc : s.mLastUpdateSlice ≤ c)
    (hwin : c ≤ c1 + N_TIME_SLICES) :
    (s.tryAquireRequestTicket c).1 = decide ((p : Int) < K) ∧
    BInv (s.tryAquireRequestTicket c).2 K (p + 1) c1 := by
  have hrec := reconcile_BInv s K p c1 c hinv hc hwin
  have hrc1 : (s.reconcile c).1 = s.mRequestCounters := congrArg Prod.fst hrec
  have hrc2 : (s.reconcile c).2 = s.mCurrentRPS := congrArg Prod.snd hrec
  obtain ⟨hK, hagg, hsum, hpos, hsupp, hc1⟩ := hinv
  by_cases hp : (p : Int) < K
  · have hadm : (s.reconcile c).2 < s.mMaxRPS := by
      rw [hrc2, hagg, hK]
      omega
    rw [tryAquire_pos s c hadm]
    refine ⟨by simp [hp], hK, ?_, ?_, ?_, ?_, ?_⟩
    · show (s.reconcile c).2 + 1 = min (((p + 1 : Nat) : Int)) K
      rw [hrc2, hagg]
      push_cast
      omega
    · show (s.reconcile c).2 + 1 = ∑ j,
          Function.update (s.reconcile c).1 (idx c) ((s.reconcile c).1 (idx c) + 1) j
      rw [sum_update_add_one, hrc1, hrc2, hsum]
    · show ∀ j, 0 ≤
          Function.update (s.reconcile c).1 (idx c) ((s.reconcile c).1 (idx c) + 1) j
      intro j
      by_cases hj : j = idx c
      · subst hj
        rw [Function.update_same, hrc1]
        have := hpos (idx c)
        omega
      · rw [Function.update_noteq hj, hrc1]
        exact hpos j
    · show ∀ j,
          Function.update (s.reconcile c).1 (idx c) ((s.reconcile c).1 (idx c) + 1) j ≠ 0 →
          ∃ a, c1 ≤ a ∧ a ≤ c ∧ idx a = j
      intro j hj
      by_cases hje : j = idx c
      · exact ⟨c, by omega, le_refl c, hje.symm⟩
      · rw [Function.update_noteq hje, hrc1] at hj
        obtain ⟨a, ha1, ha2, ha3⟩ := hsupp j hj
        exact ⟨a, ha1, by omega, ha3⟩
    · show c1 ≤ c
      omega
  · have hadm : ¬ (s.reconcile c).2 < s.mMaxRPS := by
      rw [hrc2, hagg, hK]
      omega
    rw [tryAquire_neg s c hadm]
    refine ⟨by simp [hp], hK, ?_, ?_, ?_, ?_, ?_⟩
    · show (s.reconcile c).2 = min (((p + 1 : Nat) : Int)) K
      rw [hrc2, hagg]
      push_cast
      omega
    · show (s.reconcile c).2 = ∑ j, (s.reconcile c).1 j
      rw [hrc1, hrc2, hsum]
    · show ∀ j, 0 ≤ (s.reconcile c).1 j
      intro j
      rw [hrc1]
      exact hpos j
    · show ∀ j, (s.reconcile c).1 j ≠ 0 → ∃ a, c1 ≤ a ∧ a ≤ c ∧ idx a = j
      intro j hj
      rw [hrc1] at hj
      obtain ⟨a, ha1, ha2, ha3⟩ := hsupp j hj
      exact ⟨a, ha1, by omega, ha3⟩
    · show c1 ≤ c
      omega

/-- Running a burst that stays within one window: the `i`-th call (counting
from `p`) succeeds exactly when `p + i < K`. -/
lemma burst_run (K : Int) (l : List Nat) :
    ∀ (s : RateLimit) (p : Nat) (c1 : Nat),
      BInv s K p c1 →
      List.Chain' (· ≤ ·) (s.mLastUpdateSlice :: l) →
      (∀ b ∈ l, b ≤ c1 + N_TIME_SLICES) →
      (runSlices s l).1 =
        (List.range l.length).map (fun i => decide (((p : Int) + (i : Nat)) < K)) ∧
      BInv (runSlices s l).2 K (p + l.length) c1 := by
  induction l with
  | nil =>
      intro s p c1 hinv _ _
      exact ⟨rfl, by simpa using hinv⟩
  | cons c l ih =>
      intro s p c1 hinv hchain hwin
      rw [List.chain'_cons] at hchain
      obtain ⟨hc, hchain'⟩ := hchain
      obtain ⟨hres, hinv'⟩ := step_BInv s K p c1 c hinv hc (hwin c (List.mem_cons_self c l))
      have hlast : (s.tryAquireRequestTicket c).2.mLastUpdateSlice = c := by
        rw [RateLimit.tryAquireRequestTicket]
        split <;> rfl
      have hchain'' :
          List.Chain' (· ≤ ·) ((s.tryAquireRequestTicket c).2.mLastUpdateSlice :: l) := by
        rw [hlast]
        exact hchain'
      obtain ⟨g1, g2⟩ := ih (s.tryAquireRequestTicket c).2 (p + 1) c1 hinv' hchain''
        (fun b hb => hwin b (List.mem_cons_of_mem c hb))
      rw [runSlices_cons]
      constructor
      · show (s.tryAquireRequestTicket c).1 :: (runSlices (s.tryAquireRequestTicket c).2 l).1 =
          (List.range (c :: l).length).map (fun i => decide (((p : Int) + (i : Nat)) < K))
        rw [hres, g1, List.length_cons, List.range_succ_eq_map, List.map_cons, List.map_map]
        refine List.cons_eq_cons.mpr ⟨?_, ?_⟩
        · refine decide_eq_decide.mpr ?_
          push_cast
          constructor <;> intro h <;> omega
        · refine List.map_congr_left (fun i hi => ?_)
          refine decide_eq_decide.mpr ?_
          push_cast
          constructor <;> intro h <;> omega
      · show BInv (runSlices (s.tryAquireRequestTicket c).2 l).2 K (p + (c :: l).length) c1
        rw [List.length_cons]
        have hpl : p + (l.length + 1) = p + 1 + l.length := by omega
        rw [hpl]
        exact g2

/-- Shape of a burst's result list when the burst length is `K - p + 1`:
all admissions until the budget runs out, then one denial. -/
lemma range_map_decide_lt (K : Int) :
    ∀ (n : Nat) (p : Nat), (p : Int) + n = K + 1 → 1 ≤ n →
      (List.range n).map (fun i => decide (((p : Int) + (i : Nat)) < K)) =
        List.replicate (n - 1) true ++ [false] := by
  intro n
  induction n with
  | zero => intro p _ h; omega
  | succ n ih =>
      intro p hpn _
      rw [List.range_succ_eq_map, List.map_cons, List.map_map]
      by_cases hn0 : n = 0
      · subst hn0
        have hp : ¬ ((p : Int) + ((0 : Nat) : Int) < K) := by
          push_cast at hpn ⊢
          omega
        simp [hp]
        omega
      · have hhead : decide ((p : Int) + ((0 : Nat) : Int) < K) = true := by
          have hlt : (p : Int) + ((0 : Nat) : Int) < K := by
            push_cast at hpn ⊢
            omega
          simpa using hlt
        rw [hhead]
        have htail : List.map ((fun i => decide (((p : Int) + (i : Nat)) < K)) ∘ Nat.succ)
            (List.range n) = List.replicate (n - 1) true ++ [false] := by
          rw [← ih (p + 1) (by push_cast at hpn ⊢; omega) (by omega)]
          refine (List.map_congr_left (fun i hi => ?_)).symm
          refine decide_eq_decide.mpr ?_
          push_cast
          constructor <;> intro h <;> omega
        rw [htail]
        have hrep : List.replicate (n + 1 - 1) true = true :: List.replicate (n - 1) true := by
          have hn1 : n + 1 - 1 = (n - 1) + 1 := by omega
          rw [hn1, List.replicate_succ]
        rw [hrep]
        rfl

lemma chain_const (s0 : Nat) : ∀ n, List.Chain' (· ≤ ·) (s0 :: List.replicate n s0)
  | 0 => List.chain'_singleton s0
  | n + 1 => List.chain'_cons.mpr ⟨le_refl s0, chain_const s0 n⟩

lemma BInv_init (K : Int) (hK : 0 ≤ K) (s0 : Nat) : BInv (RateLimit.init K s0) K 0 s0 := by
  refine ⟨rfl, ?_, ?_, fun j => le_refl 0, fun j hj => absurd rfl hj, le_refl s0⟩
  · show (0 : Int) = min (((0 : Nat) : Int)) K
    push_cast
    omega
  · show (0 : Int) = ∑ _j : Fin HISTORY_LENGTH, (0 : Int)
    rw [Finset.sum_const_zero]

/-- A call after a gap of at least a full buffer behaves exactly like the same
call on a freshly constructed limiter with the same limit (constructed at any
slice). -/
lemma tryAquire_far_eq_fresh (s : RateLimit) (c : Nat) (s0 : Nat)
    (hgap : s.mLastUpdateSlice + HISTORY_LENGTH ≤ c) :
    s.tryAquireRequestTicket c =
      (RateLimit.init s.mMaxRPS s0).tryAquireRequestTicket c := by
  have h1 : s.reconcile c = (fun _ => 0, 0) := reconcile_far s c hgap
  have h2 : (RateLimit.init s.mMaxRPS s0).reconcile c = (fun _ => 0, 0) :=
    reconcile_clean (RateLimit.init s.mMaxRPS s0) c (fun j => rfl) rfl
  rw [RateLimit.tryAquireRequestTicket, RateLimit.tryAquireRequestTicket, h1, h2]
  rfl

/-- With a clean buffer and a non-positive limit, every call is denied and the
buffer stays clean. -/
lemma run_clean_nonpos (cs : List Nat) :
    ∀ (s : RateLimit), s.mMaxRPS ≤ 0 → (∀ j, s.mRequestCounters j = 0) →
      s.mCurrentRPS = 0 →
      (runSlices s cs).1 = List.replicate cs.length false := by
  induction cs with
  | nil => intro s _ _ _; rfl
  | cons c cs ih =>
      intro s hm hz ha
      have hrec := reconcile_clean s c hz ha
      have h2 : (s.reconcile c).2 = 0 := congrArg Prod.snd hrec
      have h1 : (s.reconcile c).1 = s.mRequestCounters := congrArg Prod.fst hrec
      have hadm : ¬ (s.reconcile c).2 < s.mMaxRPS := by
        rw [h2]
        omega
      rw [runSlices_cons, tryAquire_neg s c hadm, List.length_cons, List.replicate_succ]
      refine List.cons_eq_cons.mpr ⟨rfl, ?_⟩
      exact ih _ hm (fun j => by rw [h1]; exact hz j) h2

/-- A call in the same slice as the previous one, with the budget exhausted,
is denied and leaves the state bit-for-bit unchanged. -/
lemma tryAquire_same_full (s : RateLimit) (h : s.mCurrentRPS = s.mMaxRPS) :
    s.tryAquireRequestTicket s.mLastUpdateSlice = (false, s) := by
  have hrec : s.reconcile s.mLastUpdateSlice = (s.mRequestCounters, s.mCurrentRPS) :=
    reconcile_same s _ rfl
  have hadm : ¬ (s.reconcile s.mLastUpdateSlice).2 < s.mMaxRPS := by
    rw [congrArg Prod.snd hrec, h]
    omega
  rw [tryAquire_neg _ _ hadm, congrArg Prod.fst hrec, congrArg Prod.snd hrec]

/-! ### The statistics recorder (`class API`) -/

/-- Counter state of the `API` statistics recorder: the per-bucket success and
rate-limited call counts (two `std::deque<int>` in the source). -/
structure APIState where
  mSuccessfullCalls : List Int
  mRateLimitedCalls : List Int

/-- Effect of `deque::resize(n)` when `n ≥ size()`: append value-initialised
(zero) elements up to length `n`. -/
def resizeTo (l : List Int) (n : Nat) : List Int :=
  l ++ List.replicate (n - l.length) 0

/-- Increment the entry at index `i` (in-bounds in every use below). -/
def incAt (l : List Int) (i : Nat) : List Int := l.set i (l.getD i 0 + 1)

/-- The bookkeeping of `API::call` once the limiter has answered `called` and
the elapsed time has been bucketed into `time_index`
(`size_t(seconds_since_start * 10)`): grow whichever deques are too short to
`time_index + 1` entries, then increment the success or the rate-limited
counter of that bucket. -/
def APIState.call (st : APIState) (called : Bool) (time_index : Nat) : APIState :=
  let s := if st.mSuccessfullCalls.length ≤ time_index then
      resizeTo st.mSuccessfullCalls (time_index + 1) else st.mSuccessfullCalls
  let r := if st.mRateLimitedCalls.length ≤ time_index then
      resizeTo st.mRateLimitedCalls (time_index + 1) else st.mRateLimitedCalls
  if called then ⟨incAt s time_index, r⟩ else ⟨s, incAt r time_index⟩

/-- Recorder state at construction: both deques empty. -/
def APIState.initial : APIState := ⟨[], []⟩

/-- Run the recorder bookkeeping over a sequence of call events, each giving
the limiter's answer and the time bucket of the call. -/
def APIState.run : APIState → List (Bool × Nat) → APIState
  | st, [] => st
  | st, e :: es => APIState.run (st.call e.1 e.2) es

/-- The lower iterator offset `std::max<size_t>(0, i - 9)` that `printStat`
uses for the rolling sum, with `size_t` (64-bit unsigned) semantics: the
subtraction `i - 9` wraps modulo `2 ^ 64` before the comparison with 0. -/
def printStatLowerIndex (i : Nat) : Nat := max 0 ((i + 2 ^ 64 - 9) % 2 ^ 64)

/-- The lower summation index the specification describes for the rolling sum:
the mathematical `max 0 (i - 9)`, i.e. truncated subtraction. -/
def specRollingLowerIndex (i : Nat) : Nat := i - 9

/-- Sum of the entries of `l` with indices in `[lo, hi)`, the value of
`std::accumulate(l.begin() + lo, l.begin() + hi, 0)` when `lo ≤ hi ≤ l.length`. -/
def sumRange (l : List Int) (lo hi : Nat) : Int := ((l.drop lo).take (hi - lo)).sum

lemma length_resizeTo (l : List Int) (n : Nat) :
    (resizeTo l n).length = max l.length n := by
  rw [resizeTo, List.length_append, List.length_replicate]
  omega

lemma length_incAt (l : List Int) (i : Nat) : (incAt l i).length = l.length :=
  List.length_set l i _

/-- Both deques grow to exactly `max length (time_index + 1)` on every call. -/
lemma call_lengths (st : APIState) (b : Bool) (t : Nat) :
    (st.call b t).mSuccessfullCalls.length =
      max st.mSuccessfullCalls.length (t + 1) ∧
    (st.call b t).mRateLimitedCalls.length =
      max st.mRateLimitedCalls.length (t + 1) := by
  cases b with
  | true =>
      refine ⟨?_, ?_⟩
      · show (incAt (if st.mSuccessfullCalls.length ≤ t then
            resizeTo st.mSuccessfullCalls (t + 1) else st.mSuccessfullCalls) t).length = _
        rw [length_incAt]
        split_ifs with h
        · rw [length_resizeTo]
        · omega
      · show (if st.mRateLimitedCalls.length ≤ t then
            resizeTo st.mRateLimitedCalls (t + 1) else st.mRateLimitedCalls).length = _
        split_ifs with h
        · rw [length_resizeTo]
        · omega
  | false =>
      refine ⟨?_, ?_⟩
      · show (if st.mSuccessfullCalls.length ≤ t then
            resizeTo st.mSuccessfullCalls (t + 1) else st.mSuccessfullCalls).length = _
        split_ifs with h
        · rw [length_resizeTo]
        · omega
      · show (incAt (if st.mRateLimitedCalls.length ≤ t then
            resizeTo st.mRateLimitedCalls (t + 1) else st.mRateLimitedCalls) t).length = _
        rw [length_incAt]
        split_ifs with h
        · rw [length_resizeTo]
        · omega

/-- Over any event sequence, the two deques keep equal lengths and never
shrink. -/
lemma run_lengths (events : List (Bool × Nat)) :
    ∀ (st : APIState),
      st.mSuccessfullCalls.length = st.mRateLimitedCalls.length →
      ((APIState.run st events).mSuccessfullCalls.length =
        (APIState.run st events).mRateLimitedCalls.length ∧
       st.mSuccessfullCalls.length ≤
        (APIState.run st events).mSuccessfullCalls.length) := by
  induction events with
  | nil => intro st h; exact ⟨h, le_refl _⟩
  | cons e es ih =>
      intro st h
      obtain ⟨c1, c2⟩ := call_lengths st e.1 e.2
      obtain ⟨g1, g2⟩ := ih (st.call e.1 e.2) (by rw [c1, c2, h])
      refine ⟨g1, le_trans ?_ g2⟩
      rw [c1]
      omega

/-! ### Entry calls of a burst -/

lemma tryAquire_last (s : RateLimit) (c : Nat) :
    (s.tryAquireRequestTicket c).2.mLastUpdateSlice = c := by
  rw [RateLimit.tryAquireRequestTicket]
  split <;> rfl

/-- A call whose reconciliation yields an empty buffer (either because the
limiter is fresh or because a full window has elapsed) is admitted whenever the
limit is positive, and starts a new burst at its own slice. -/
lemma reset_call (s : RateLimit) (K : Int) (hK : 0 < K) (c : Nat)
    (hm : s.mMaxRPS = K)
    (hrec0 : s.reconcile c = ((fun _ => 0 : Fin HISTORY_LENGTH → Int), 0)) :
    (s.tryAquireRequestTicket c).1 = true ∧
    BInv (s.tryAquireRequestTicket c).2 K 1 c := by
  have h1 : (s.reconcile c).1 = (fun _ => 0 : Fin HISTORY_LENGTH → Int) :=
    congrArg Prod.fst hrec0
  have h2 : (s.reconcile c).2 = 0 := congrArg Prod.snd hrec0
  have hadm : (s.reconcile c).2 < s.mMaxRPS := by
    rw [h2, hm]
    omega
  rw [tryAquire_pos s c hadm]
  refine ⟨rfl, hm, ?_, ?_, ?_, ?_, le_refl c⟩
  · show (s.reconcile c).2 + 1 = min (((1 : Nat) : Int)) K
    rw [h2]
    push_cast
    omega
  · show (s.reconcile c).2 + 1 = ∑ j,
        Function.update (s.reconcile c).1 (idx c) ((s.reconcile c).1 (idx c) + 1) j
    rw [sum_update_add_one, h2, h1, Finset.sum_const_zero]
  · show ∀ j, 0 ≤
        Function.update (s.reconcile c).1 (idx c) ((s.reconcile c).1 (idx c) + 1) j
    intro j
    by_cases hj : j = idx c
    · subst hj
      rw [Function.update_same, h1]
      show (0 : Int) ≤ 0 + 1
      omega
    · rw [Function.update_noteq hj, h1]
  · show ∀ j,
        Function.update (s.reconcile c).1 (idx c) ((s.reconcile c).1 (idx c) + 1) j ≠ 0 →
        ∃ a, c ≤ a ∧ a ≤ c ∧ idx a = j
    intro j hj
    by_cases hje : j = idx c
    · exact ⟨c, le_refl c, le_refl c, hje.symm⟩
    · rw [Function.update_noteq hje, h1] at hj
      exact absurd rfl hj

lemma getLastD_cons_mem (cs : List Nat) :
    ∀ (c1 x : Nat), (c1 :: cs).getLastD x ∈ c1 :: cs := by
  induction cs with
  | nil => intro c1 x; exact List.mem_singleton.mpr rfl
  | cons c cs ih =>
      intro c1 x
      rw [List.getLastD_cons]
      exact List.mem_cons_of_mem c1 (ih c x)

lemma APIState.run_append (pre post : List (Bool × Nat)) :
    ∀ (st : APIState), APIState.run st (pre ++ post) =
      APIState.run (APIState.run st pre) post := by
  induction pre with
  | nil => intro st; rfl
  | cons e es ih => intro st; exact ih (st.call e.1 e.2)

/-! ### Claim theorems -/

/-- C4: on every call the reconciliation proceeds exactly as specified: same
slice — nothing changes; less than a full buffer elapsed — precisely the slots
of the slices strictly after `mLastUpdateSlice` up to and including the current
slice are zeroed, their stored counts are subtracted from the aggregate, and no
other slot changes; otherwise every slot is zeroed and the aggregate reset. -/
theorem reconcile_characterization (s : RateLimit) (c : Nat) :
    (c = s.mLastUpdateSlice → s.reconcile c = (s.mRequestCounters, s.mCurrentRPS)) ∧
    (s.mLastUpdateSlice < c → c - s.mLastUpdateSlice < HISTORY_LENGTH →
      (∀ j, (s.reconcile c).1 j =
        if ∃ m ∈ Finset.range (c - s.mLastUpdateSlice),
            idx (s.mLastUpdateSlice + 1 + m) = j
        then 0 else s.mRequestCounters j) ∧
      (s.reconcile c).2 = s.mCurrentRPS -
        ∑ m ∈ Finset.range (c - s.mLastUpdateSlice),
          s.mRequestCounters (idx (s.mLastUpdateSlice + 1 + m))) ∧
    (s.mLastUpdateSlice + HISTORY_LENGTH ≤ c →
      (∀ j, (s.reconcile c).1 j = 0) ∧ (s.reconcile c).2 = 0) := by
  refine ⟨reconcile_same s c, fun h1 h2 => ?_, fun hfar => ?_⟩
  · rw [reconcile_near s c h1 h2]
    have hH : HISTORY_LENGTH = N_TIME_SLICES + 1 := rfl
    exact ⟨fun j => clearSlots_fst _ _ _ _ j, clearSlots_snd _ (by omega) _ _ _⟩
  · rw [reconcile_far s c hfar]
    exact ⟨fun j => rfl, rfl⟩

/-- C4 witness: concrete instantiation at a fresh limiter called two slices
after construction (the partial-reconciliation branch). -/
theorem reconcile_characterization_witness :
    (RateLimit.init 2 5).mLastUpdateSlice < 7 ∧
    7 - (RateLimit.init 2 5).mLastUpdateSlice < HISTORY_LENGTH ∧
    ((RateLimit.init 2 5).reconcile 7).2 = (RateLimit.init 2 5).mCurrentRPS -
      ∑ m ∈ Finset.range (7 - (RateLimit.init 2 5).mLastUpdateSlice),
        (RateLimit.init 2 5).mRequestCounters
          (idx ((RateLimit.init 2 5).mLastUpdateSlice + 1 + m)) :=
  ⟨by decide, by decide,
    ((reconcile_characterization (RateLimit.init 2 5) 7).2.1 (by decide) (by decide)).2⟩

/-- C5: a denied call changes no state beyond the bookkeeping of elapsed
slices (its final state is exactly the reconciled buffer and aggregate with
the updated `mLastUpdateSlice`); in particular, with `aggregate = maxRate` and
no elapsed slice, any number of repeated calls all return `false` and leave
the state — aggregate and every slot counter — bit-for-bit unchanged. -/
theorem denial_frame (s : RateLimit) (c : Nat) (n : Nat) :
    ((s.tryAquireRequestTicket c).1 = false →
      (s.tryAquireRequestTicket c).2 =
        ⟨c, s.mMaxRPS, (s.reconcile c).1, (s.reconcile c).2⟩) ∧
    (s.mCurrentRPS = s.mMaxRPS →
      runSlices s (List.replicate n s.mLastUpdateSlice) =
        (List.replicate n false, s)) := by
  constructor
  · intro hfalse
    by_cases hadm : (s.reconcile c).2 < s.mMaxRPS
    · rw [tryAquire_pos s c hadm] at hfalse ⊢
      exact absurd hfalse (by simp)
    · rw [tryAquire_neg s c hadm]
  · intro hfull
    induction n with
    | zero => rfl
    | succ n ih =>
        rw [List.replicate_succ, runSlices_cons, tryAquire_same_full s hfull, ih,
          List.replicate_succ]

/-- C5 witness: a limiter with limit 1 and one admission recorded; a later
call is denied, and three same-slice repeats leave the state unchanged. -/
theorem denial_frame_witness :
    (((runSlices (RateLimit.init 1 0) [0]).2.tryAquireRequestTicket 5).1 = false ∧
      ((runSlices (RateLimit.init 1 0) [0]).2.tryAquireRequestTicket 5).2 =
        ⟨5, (runSlices (RateLimit.init 1 0) [0]).2.mMaxRPS,
          ((runSlices (RateLimit.init 1 0) [0]).2.reconcile 5).1,
          ((runSlices (RateLimit.init 1 0) [0]).2.reconcile 5).2⟩) ∧
    ((runSlices (RateLimit.init 1 0) [0]).2.mCurrentRPS =
        (runSlices (RateLimit.init 1 0) [0]).2.mMaxRPS ∧
      runSlices (runSlices (RateLimit.init 1 0) [0]).2
          (List.replicate 3 (runSlices (RateLimit.init 1 0) [0]).2.mLastUpdateSlice) =
        (List.replicate 3 false, (runSlices (RateLimit.init 1 0) [0]).2)) :=
  ⟨⟨by decide, (denial_frame (runSlices (RateLimit.init 1 0) [0]).2 5 3).1 (by decide)⟩,
   ⟨by decide, (denial_frame (runSlices (RateLimit.init 1 0) [0]).2 5 3).2 (by decide)⟩⟩

/-- C6: a limiter constructed with `maxRate = 0` denies every call, whatever
the number of calls and the elapsed time between them. -/
theorem zero_rate_denies (s0 : Nat) (cs : List Nat) :
    (runSlices (RateLimit.init 0 s0) cs).1 = List.replicate cs.length false :=
  run_clean_nonpos cs (RateLimit.init 0 s0) (le_refl 0) (fun _ => rfl) rfl

/-- C9 (implicit): the constructor accepts any integer `maxRate` — the model
takes the full `Int` just as the C++ `int` parameter does — and for every
negative `maxRate` every call is denied, exactly as for `maxRate = 0`. -/
theorem negative_rate_denies (m : Int) (hm : m < 0) (s0 : Nat) (cs : List Nat) :
    (runSlices (RateLimit.init m s0) cs).1 = List.replicate cs.length false :=
  run_clean_nonpos cs (RateLimit.init m s0) (le_of_lt hm) (fun _ => rfl) rfl

/-- C9 witness. -/
theorem negative_rate_denies_witness :
    (runSlices (RateLimit.init (-1) 0) [0, 2000]).1 = List.replicate 2 false :=
  negative_rate_denies (-1) (by decide) 0 [0, 2000]

/-- C7: after an idle gap of at least `HISTORY_LENGTH` slices with no calls
(an idle period exceeding the full length of the buffer window), the next call
and every call after it behave identically — same results, same final state —
to the same call sequence on a freshly constructed limiter with the same
`maxRate` (constructed at any slice). -/
theorem idle_reset_fresh (s : RateLimit) (c : Nat) (s0 : Nat) (cs : List Nat)
    (hgap : s.mLastUpdateSlice + HISTORY_LENGTH ≤ c) :
    runSlices s (c :: cs) = runSlices (RateLimit.init s.mMaxRPS s0) (c :: cs) := by
  rw [runSlices_cons, runSlices_cons, tryAquire_far_eq_fresh s c s0 hgap]

/-- C7 witness: a limiter holding one admission, idle for a full buffer
length, then two calls — identical to a fresh limiter. -/
theorem idle_reset_fresh_witness :
    (runSlices (RateLimit.init 1 0) [0]).2.mLastUpdateSlice + HISTORY_LENGTH ≤ 1001 ∧
    runSlices (runSlices (RateLimit.init 1 0) [0]).2 [1001, 1001] =
      runSlices (RateLimit.init (runSlices (RateLimit.init 1 0) [0]).2.mMaxRPS 7)
        [1001, 1001] :=
  ⟨by decide, idle_reset_fresh (runSlices (RateLimit.init 1 0) [0]).2 1001 7 [1001]
    (by decide)⟩

/-- C1: the mutex serialises all callers, so every concurrent execution is a
sequential run at non-decreasing clock readings; over every such run, and for
every window `[T, T + 1]` of one second of real time, the number of calls that
returned `true` at times inside the window is at most `maxRate` — in
particular at most `maxRate` plus any non-negative slice-rounding tolerance. -/
theorem tryAquire_trailing_window_bound (m : Int) (hm : 0 ≤ m) (t0 T : ℚ)
    (ts : List ℚ) (hchain : List.Chain' (· ≤ ·) (t0 :: ts)) :
    ((admTimes ts
        (runSlices (RateLimit.init m (sliceOf t0)) (ts.map sliceOf)).1).countP
      (fun t => decide (T ≤ t ∧ t ≤ T + 1)) : Int) ≤ m := by
  have hcount : (admTimes ts
        (runSlices (RateLimit.init m (sliceOf t0)) (ts.map sliceOf)).1).countP
        (fun t => decide (T ≤ t ∧ t ≤ T + 1)) ≤
      (admSlices (ts.map sliceOf)
        (runSlices (RateLimit.init m (sliceOf t0)) (ts.map sliceOf)).1).countP
        (winP (sliceOf T)) := by
    rw [admSlices_map_sliceOf, List.countP_map]
    refine List.countP_mono_left (fun t _ h => ?_)
    simp only [decide_eq_true_eq, Function.comp, winP] at h ⊢
    obtain ⟨h1, h2⟩ := h
    exact ⟨sliceOf_mono h1, le_trans (sliceOf_mono h2) (sliceOf_add_one_le T)⟩
  have hslice := window_bound_slices m (sliceOf t0) (ts.map sliceOf)
    (chain_map_sliceOf t0 ts hchain) (sliceOf T)
  rw [max_eq_left hm] at hslice
  exact le_trans (by exact_mod_cast hcount) hslice

/-- C1 witness: three simultaneous calls at time 0 on a limiter with rate 2;
the window starting at 0 admits at most 2. -/
theorem tryAquire_trailing_window_bound_witness :
    (0 : Int) ≤ 2 ∧
    ((admTimes [0, 0, 0]
        (runSlices (RateLimit.init 2 (sliceOf 0))
          (([0, 0, 0] : List ℚ).map sliceOf)).1).countP
      (fun t => decide ((0 : ℚ) ≤ t ∧ t ≤ 0 + 1)) : Int) ≤ 2 :=
  ⟨by decide, tryAquire_trailing_window_bound 2 (by decide) 0 0 [0, 0, 0]
    (List.chain'_cons.mpr ⟨le_refl 0, List.chain'_cons.mpr ⟨le_refl 0,
      List.chain'_cons.mpr ⟨le_refl 0, List.chain'_singleton 0⟩⟩⟩)⟩

/-- C2: in every reachable state the aggregate equals the exact sum of the
slot counters; for the (per the data model non-negative) configured limit the
aggregate never exceeds `maxRate`, in the initial state and after every call;
and `aggregate = maxRate` is reachable whenever `maxRate > 0`. -/
theorem aggregate_invariant :
    (∀ rl : RateLimit, Reachable rl →
      rl.mCurrentRPS = (∑ j, rl.mRequestCounters j) ∧
      (0 ≤ rl.mMaxRPS → rl.mCurrentRPS ≤ rl.mMaxRPS)) ∧
    (∀ K : Int, 0 < K → ∃ rl : RateLimit,
      Reachable rl ∧ rl.mMaxRPS = K ∧ rl.mCurrentRPS = K) := by
  constructor
  · intro rl hreach
    obtain ⟨A, hA, hslot, hsum, hpos, hmax⟩ := Reachable_WInv rl hreach
    exact ⟨hsum, fun hm => le_trans hmax (le_of_eq (max_eq_left hm))⟩
  · intro K hK
    obtain ⟨hres, hfin⟩ := burst_run K (List.replicate K.toNat 0)
      (RateLimit.init K 0) 0 0 (BInv_init K hK.le 0) (chain_const 0 K.toNat)
      (fun b hb => by rw [List.eq_of_mem_replicate hb]; omega)
    obtain ⟨g1, g2, -⟩ := hfin
    refine ⟨(runSlices (RateLimit.init K 0) (List.replicate K.toNat 0)).2,
      ⟨K, 0, List.replicate K.toNat 0, chain_const 0 K.toNat, rfl⟩, g1, ?_⟩
    rw [g2, List.length_replicate]
    have hKto : ((0 + K.toNat : Nat) : Int) = K := by
      push_cast
      omega
    rw [hKto]
    omega

/-- C2 witness: the fresh limiter is reachable and satisfies the invariant;
`aggregate = 1` is reached for `maxRate = 1`. -/
theorem aggregate_invariant_witness :
    ((RateLimit.init 3 5).mCurrentRPS = (∑ j, (RateLimit.init 3 5).mRequestCounters j) ∧
      (0 ≤ (RateLimit.init 3 5).mMaxRPS →
        (RateLimit.init 3 5).mCurrentRPS ≤ (RateLimit.init 3 5).mMaxRPS)) ∧
    (∃ rl : RateLimit, Reachable rl ∧ rl.mMaxRPS = 1 ∧ rl.mCurrentRPS = 1) :=
  ⟨aggregate_invariant.1 (RateLimit.init 3 5) ⟨3, 5, [], List.chain'_singleton 5, rfl⟩,
   aggregate_invariant.2 1 (by decide)⟩

/-- C3 counterexample: `maxRate = 1`, limiter constructed and first called at
time 0 (slice 0, admitted), next call at time 1 — at least 1.0 second later
with no intervening calls or admissions — is still denied: the slice
difference is exactly `N_TIME_SLICES`, so the partial reconciliation spares
the slot holding the admission, refuting the claim that after ≥ 1.0 s exactly
`K` more calls succeed. -/
theorem cold_limiter_one_second_counterexample :
    (1 : ℚ) - 0 ≥ 1 ∧ sliceOf 1 - sliceOf 0 = N_TIME_SLICES ∧
    (runSlices (RateLimit.init 1 (sliceOf 0)) [sliceOf 0, sliceOf 1]).1 =
      [true, false] := by
  have hs0 : sliceOf 0 = 0 := by norm_num [sliceOf]
  have hs1 : sliceOf 1 = 1000 := by
    norm_num [sliceOf, N_TIME_SLICES]
    rfl
  refine ⟨by norm_num, by rw [hs0, hs1]; rfl, ?_⟩
  rw [hs0, hs1]
  obtain ⟨hres, -⟩ := burst_run 1 [0, 1000] (RateLimit.init 1 0) 0 0
    (BInv_init 1 (by decide) 0)
    (List.chain'_cons.mpr ⟨by decide, List.chain'_cons.mpr ⟨by decide,
      List.chain'_singleton 1000⟩⟩)
    (by decide)
  rw [hres]
  decide

lemma runSlices_maxRPS (cs : List Nat) :
    ∀ (s : RateLimit), (runSlices s cs).2.mMaxRPS = s.mMaxRPS := by
  induction cs with
  | nil => intro s; rfl
  | cons c cs ih =>
      intro s
      rw [runSlices_cons]
      show (runSlices (s.tryAquireRequestTicket c).2 cs).2.mMaxRPS = s.mMaxRPS
      rw [ih]
      rw [RateLimit.tryAquireRequestTicket]
      split <;> rfl

/-- One burst segment of `K.toNat + 1` calls within a window, started by a
call whose reconciliation empties the buffer: `K` admissions then one denial. -/
lemma burst_segment (K : Int) (hK : 0 < K) (s : RateLimit) (c1 : Nat)
    (l : List Nat) (hlen : l.length = K.toNat) (hm : s.mMaxRPS = K)
    (hrec0 : s.reconcile c1 = ((fun _ => 0 : Fin HISTORY_LENGTH → Int), 0))
    (hchain : List.Chain' (· ≤ ·) (c1 :: l))
    (hwin : ∀ b ∈ l, b ≤ c1 + N_TIME_SLICES) :
    (runSlices s (c1 :: l)).1 = List.replicate K.toNat true ++ [false] := by
  obtain ⟨e1, eB⟩ := reset_call s K hK c1 hm hrec0
  obtain ⟨f1, -⟩ := burst_run K l (s.tryAquireRequestTicket c1).2 1 c1 eB
    (by rw [tryAquire_last]; exact hchain) hwin
  rw [runSlices_cons]
  show (s.tryAquireRequestTicket c1).1 ::
      (runSlices (s.tryAquireRequestTicket c1).2 l).1 = _
  rw [e1, f1, hlen, range_map_decide_lt K K.toNat 1 (by push_cast; omega) (by omega)]
  conv_rhs => rw [show K.toNat = (K.toNat - 1) + 1 from by omega, List.replicate_succ]
  rw [List.cons_append]

/-- Moving one buffer length forward leaves the slot unchanged. -/
lemma idx_add_len (a : Nat) : idx (a + HISTORY_LENGTH) = idx a :=
  Fin.ext (Nat.add_mod_right a HISTORY_LENGTH)

/-- Saturated-phase invariant: once a burst that started at slice `c1` has
exhausted the budget, the aggregate sits at `K`, every non-zero slot stores
admissions from slices between `c1` and `u` (the last slice of the initial
burst — denied calls record nothing, so the support does not grow), and the
last update stays within the window of `c1`. -/
def SInv (s : RateLimit) (K : Int) (c1 u : Nat) : Prop :=
  s.mMaxRPS = K ∧
  s.mCurrentRPS = K ∧
  s.mCurrentRPS = (∑ j, s.mRequestCounters j) ∧
  (∀ j, 0 ≤ s.mRequestCounters j) ∧
  (∀ j, s.mRequestCounters j ≠ 0 → ∃ a, c1 ≤ a ∧ a ≤ u ∧ idx a = j) ∧
  c1 ≤ u ∧
  u ≤ s.mLastUpdateSlice ∧
  s.mLastUpdateSlice ≤ c1 + N_TIME_SLICES

/-- While the budget is exhausted, every further call within the original
window is denied and the saturated invariant persists — in particular the
support bound `u` does not move. -/
lemma step_SInv (s : RateLimit) (K : Int) (c1 u : Nat) (c : Nat)
    (hinv : SInv s K c1 u) (hc : s.mLastUpdateSlice ≤ c)
    (hwin : c ≤ c1 + N_TIME_SLICES) :
    (s.tryAquireRequestTicket c).1 = false ∧
    SInv (s.tryAquireRequestTicket c).2 K c1 u := by
  obtain ⟨hK, hagg, hsum, hpos, hsupp, hc1u, hul, hlw⟩ := hinv
  have hsupp2 : ∀ j, s.mRequestCounters j ≠ 0 →
      ∃ a, c1 ≤ a ∧ a ≤ s.mLastUpdateSlice ∧ idx a = j := by
    intro j hj
    obtain ⟨a, ha1, ha2, ha3⟩ := hsupp j hj
    exact ⟨a, ha1, le_trans ha2 hul, ha3⟩
  have hrec := reconcile_supported s c1 c hsupp2 (le_trans hc1u hul) hc hwin
  have hrc1 : (s.reconcile c).1 = s.mRequestCounters := congrArg Prod.fst hrec
  have hrc2 : (s.reconcile c).2 = s.mCurrentRPS := congrArg Prod.snd hrec
  have hadm : ¬ (s.reconcile c).2 < s.mMaxRPS := by
    rw [hrc2, hagg, hK]
    omega
  rw [tryAquire_neg s c hadm]
  refine ⟨rfl, hK, ?_, ?_, ?_, ?_, hc1u, ?_, ?_⟩
  · show (s.reconcile c).2 = K
    rw [hrc2, hagg]
  · show (s.reconcile c).2 = ∑ j, (s.reconcile c).1 j
    rw [hrc1, hrc2, hsum]
  · show ∀ j, 0 ≤ (s.reconcile c).1 j
    intro j
    rw [hrc1]
    exact hpos j
  · show ∀ j, (s.reconcile c).1 j ≠ 0 → ∃ a, c1 ≤ a ∧ a ≤ u ∧ idx a = j
    intro j hj
    rw [hrc1] at hj
    exact hsupp j hj
  · show u ≤ c
    omega
  · show c ≤ c1 + N_TIME_SLICES
    exact hwin

/-- A burst that has made at least `K` calls is saturated, with support
bounded by its last update slice. -/
lemma BInv_to_SInv (s : RateLimit) (K : Int) (p : Nat) (c1 : Nat)
    (hinv : BInv s K p c1) (hp : K ≤ (p : Int))
    (hlw : s.mLastUpdateSlice ≤ c1 + N_TIME_SLICES) :
    SInv s K c1 s.mLastUpdateSlice := by
  obtain ⟨hK, hagg, hsum, hpos, hsupp, hc1⟩ := hinv
  refine ⟨hK, ?_, hsum, hpos, hsupp, hc1, le_refl _, hlw⟩
  rw [hagg]
  omega

/-- A call at least a full buffer after every slice that still stores an
admission empties the whole buffer: either the full-reset branch runs, or the
partial branch's clearing range `(lastSlice, current]` contains
`a + HISTORY_LENGTH` for every supporting slice `a`, so every non-zero slot is
cleared. -/
lemma saturated_reconcile_reset (s : RateLimit) (K : Int) (c1 u d1 : Nat)
    (hinv : SInv s K c1 u) (hgap : u + HISTORY_LENGTH ≤ d1) :
    s.reconcile d1 = ((fun _ => 0 : Fin HISTORY_LENGTH → Int), 0) := by
  obtain ⟨hK, hagg, hsum, hpos, hsupp, hc1u, hul, hlw⟩ := hinv
  have hN : N_TIME_SLICES = 1000 := rfl
  have hH : HISTORY_LENGTH = N_TIME_SLICES + 1 := rfl
  by_cases hfar : s.mLastUpdateSlice + HISTORY_LENGTH ≤ d1
  · exact reconcile_far s d1 hfar
  · have hlt : s.mLastUpdateSlice < d1 := by omega
    have h2 : d1 - s.mLastUpdateSlice < HISTORY_LENGTH := by omega
    rw [reconcile_near s d1 hlt h2]
    have hcleared : ∀ j, s.mRequestCounters j ≠ 0 →
        ∃ m ∈ Finset.range (d1 - s.mLastUpdateSlice),
          idx (s.mLastUpdateSlice + 1 + m) = j := by
      intro j hj
      obtain ⟨a, ha1, ha2, ha3⟩ := hsupp j hj
      refine ⟨a + HISTORY_LENGTH - (s.mLastUpdateSlice + 1),
        Finset.mem_range.mpr (by omega), ?_⟩
      have hx : s.mLastUpdateSlice + 1 +
          (a + HISTORY_LENGTH - (s.mLastUpdateSlice + 1)) = a + HISTORY_LENGTH := by
        omega
      rw [hx, idx_add_len, ha3]
    have hfst : ∀ j, (clearSlots s.mRequestCounters s.mCurrentRPS s.mLastUpdateSlice
        (d1 - s.mLastUpdateSlice)).1 j = 0 := by
      intro j
      rw [clearSlots_fst]
      split
      · rfl
      · rename_i hcond
        by_contra hne
        exact hcond (hcleared j hne)
    obtain ⟨g1, -, -⟩ := clearSlots_invariant (d1 - s.mLastUpdateSlice)
      s.mRequestCounters s.mCurrentRPS s.mLastUpdateSlice hsum hpos
    refine Prod.ext (funext hfst) ?_
    show (clearSlots _ _ _ _).2 = 0
    rw [g1, Finset.sum_congr rfl (fun j _ => hfst j), Finset.sum_const_zero]

/-- A chain over a non-empty list followed by `ys` yields a chain from the
last element of that list into `ys`. -/
lemma chain_getLastD_append (l : List Nat) :
    ∀ (x w : Nat) (ys : List Nat),
      List.Chain' (· ≤ ·) ((x :: l) ++ ys) →
      List.Chain' (· ≤ ·) ((x :: l).getLastD w :: ys) := by
  induction l with
  | nil => intro x w ys h; exact h
  | cons y l ih =>
      intro x w ys h
      have h2 : List.Chain' (· ≤ ·) ((y :: l) ++ ys) := h.tail
      have h3 := ih y w ys h2
      rw [List.getLastD_cons]
      exact h3

/-- After the budget is exhausted, any number of further calls within the
original window are all denied, and a subsequent call at least a full buffer
after every supporting admission starts a fresh burst of exactly `K`
admissions followed by a denial — even though the gap to the last denied call
may be far shorter than a window. -/
lemma saturated_then_reset (K : Int) (hK : 0 < K) (bs : List Nat) :
    ∀ (s : RateLimit) (c1 u d1 : Nat) (ds : List Nat),
      SInv s K c1 u → ds.length = K.toNat →
      List.Chain' (· ≤ ·) (s.mLastUpdateSlice :: (bs ++ (d1 :: ds))) →
      (∀ b ∈ bs, b ≤ c1 + N_TIME_SLICES) →
      (∀ b ∈ ds, b ≤ d1 + N_TIME_SLICES) →
      u + HISTORY_LENGTH ≤ d1 →
      (runSlices s (bs ++ (d1 :: ds))).1 =
        List.replicate bs.length false ++
          (List.replicate K.toNat true ++ [false]) := by
  induction bs with
  | nil =>
      intro s c1 u d1 ds hinv hlen hchain hwinb hwind hgap
      show (runSlices s (d1 :: ds)).1 = _
      rw [burst_segment K hK s d1 ds hlen hinv.1
        (saturated_reconcile_reset s K c1 u d1 hinv hgap)
        (List.chain'_cons.mp hchain).2 hwind]
      rfl
  | cons b bs ih =>
      intro s c1 u d1 ds hinv hlen hchain hwinb hwind hgap
      rw [List.cons_append, List.chain'_cons] at hchain
      obtain ⟨hcb, hchain2⟩ := hchain
      obtain ⟨hres, hinv2⟩ := step_SInv s K c1 u b hinv hcb
        (hwinb b (List.mem_cons_self b bs))
      show ((s.tryAquireRequestTicket b).1 ::
          (runSlices (s.tryAquireRequestTicket b).2 (bs ++ (d1 :: ds))).1) = _
      rw [hres, ih (s.tryAquireRequestTicket b).2 c1 u d1 ds hinv2 hlen
          (by rw [tryAquire_last]; exact hchain2)
          (fun x hx => hwinb x (List.mem_cons_of_mem b hx)) hwind hgap,
        List.length_cons, List.replicate_succ, List.cons_append]

/-- C3 amended: for `maxRate = K > 0`, on a cold limiter the first `K` calls —
all within one window of the first call — return `true` and the `(K+1)`-th
returns `false`; any number of further calls within that same window are all
denied (so no admissions intervene); then, at a call whose slice is at least
`HISTORY_LENGTH` later than every call of the initial burst (elapsed time
strictly exceeding the full quantized window, as the unit test's 1.1 s sleep
provides, rather than merely "at least 1.0 second"), exactly `K` more calls
within one window succeed before denial resumes.  The only change forced by
the counterexample is the gap bound: a gap whose slice difference is exactly
`N_TIME_SLICES` (possible with 1.0 s of elapsed time) does not clear the slot
holding the previous admissions. -/
theorem cold_limiter_burst_and_reset (K : Int) (hK : 0 < K) (s0 : Nat)
    (c1 : Nat) (cs bs : List Nat) (d1 : Nat) (ds : List Nat)
    (hlen1 : cs.length = K.toNat) (hlen2 : ds.length = K.toNat)
    (hchain : List.Chain' (· ≤ ·) (s0 :: ((c1 :: cs) ++ (bs ++ (d1 :: ds)))))
    (hwin1 : ∀ b ∈ cs, b ≤ c1 + N_TIME_SLICES)
    (hwinb : ∀ b ∈ bs, b ≤ c1 + N_TIME_SLICES)
    (hwin2 : ∀ b ∈ ds, b ≤ d1 + N_TIME_SLICES)
    (hgap : ∀ a ∈ c1 :: cs, a + HISTORY_LENGTH ≤ d1) :
    (runSlices (RateLimit.init K s0) ((c1 :: cs) ++ (bs ++ (d1 :: ds)))).1 =
      (List.replicate K.toNat true ++ [false]) ++
      (List.replicate bs.length false ++
        (List.replicate K.toNat true ++ [false])) := by
  have hchain2 : List.Chain' (· ≤ ·) ((c1 :: cs) ++ (bs ++ (d1 :: ds))) := hchain.tail
  have hchainc : List.Chain' (· ≤ ·) (c1 :: cs) := (List.chain'_append.mp hchain2).1
  obtain ⟨e1, eB⟩ := reset_call (RateLimit.init K s0) K hK c1 rfl
    (reconcile_clean _ c1 (fun _ => rfl) rfl)
  obtain ⟨f1, fB⟩ := burst_run K cs
    ((RateLimit.init K s0).tryAquireRequestTicket c1).2 1 c1 eB
    (by rw [tryAquire_last]; exact hchainc) hwin1
  have hfB : BInv (runSlices (RateLimit.init K s0) (c1 :: cs)).2 K (1 + cs.length) c1 := by
    rw [runSlices_cons]
    exact fB
  have hlast2mem : (runSlices (RateLimit.init K s0) (c1 :: cs)).2.mLastUpdateSlice ∈
      c1 :: cs := by
    rw [runSlices_last]
    exact getLastD_cons_mem cs c1 _
  have hlw : (runSlices (RateLimit.init K s0) (c1 :: cs)).2.mLastUpdateSlice ≤
      c1 + N_TIME_SLICES := by
    rcases List.mem_cons.mp hlast2mem with h | h
    · rw [h]
      omega
    · exact hwin1 _ h
  have hS : SInv (runSlices (RateLimit.init K s0) (c1 :: cs)).2 K c1
      (runSlices (RateLimit.init K s0) (c1 :: cs)).2.mLastUpdateSlice :=
    BInv_to_SInv _ K (1 + cs.length) c1 hfB
      (by rw [hlen1]; push_cast; omega) hlw
  have hgap2 : (runSlices (RateLimit.init K s0) (c1 :: cs)).2.mLastUpdateSlice +
      HISTORY_LENGTH ≤ d1 := hgap _ hlast2mem
  have hchainS : List.Chain' (· ≤ ·)
      ((runSlices (RateLimit.init K s0) (c1 :: cs)).2.mLastUpdateSlice ::
        (bs ++ (d1 :: ds))) := by
    rw [runSlices_last]
    exact chain_getLastD_append cs c1 _ (bs ++ (d1 :: ds)) hchain2
  have hseg1 : (runSlices (RateLimit.init K s0) (c1 :: cs)).1 =
      List.replicate K.toNat true ++ [false] :=
    burst_segment K hK (RateLimit.init K s0) c1 cs hlen1 rfl
      (reconcile_clean _ c1 (fun _ => rfl) rfl) hchainc hwin1
  rw [runSlices_append]
  show (runSlices (RateLimit.init K s0) (c1 :: cs)).1 ++
      (runSlices (runSlices (RateLimit.init K s0) (c1 :: cs)).2 (bs ++ (d1 :: ds))).1 = _
  rw [hseg1, saturated_then_reset K hK bs _ c1 _ d1 ds hS hlen2 hchainS hwinb hwin2 hgap2]

/-- C3 amended, witness: `K = 2`; three calls at slice 0 give
`true, true, false`; two further calls at slices 500 and 900 are also denied;
the call at slice 1001 — a full buffer after the burst, though only 101 slices
after the last denied call, as in the repository's own ten-limit unit test —
and the two calls after it give `true, true, false` again. -/
theorem cold_limiter_burst_and_reset_witness :
    (runSlices (RateLimit.init 2 0)
        ((0 :: [0, 0]) ++ ([500, 900] ++ (1001 :: [1001, 1001])))).1 =
      (List.replicate (2 : Int).toNat true ++ [false]) ++
      (List.replicate ([500, 900] : List Nat).length false ++
        (List.replicate (2 : Int).toNat true ++ [false])) :=
  cold_limiter_burst_and_reset 2 (by decide) 0 0 [0, 0] [500, 900] 1001 [1001, 1001]
    (by decide) (by decide)
    (by rw [List.chain'_iff_pairwise]; decide)
    (by decide) (by decide) (by decide) (by decide)

/-- C8 (code bug): in `printStat` the rolling-sum lower bound
`std::max<size_t>(0, i - 9)` is computed in unsigned 64-bit arithmetic, so for
populated buckets `i < 9` the subtraction wraps around instead of clamping to
0: for bucket 0 the offset is `2 ^ 64 - 9`, far past the end of any deque the
program can build (an out-of-bounds read, undefined behavior), whereas the
described rolling sum starts at index `max 0 (i - 9) = 0`.  For `i ≥ 9` the
computed offset agrees with the described one. -/
theorem printStat_lower_index_underflow :
    printStatLowerIndex 0 = 2 ^ 64 - 9 ∧
    specRollingLowerIndex 0 = 0 ∧
    1 < printStatLowerIndex 0 ∧
    printStatLowerIndex 9 = specRollingLowerIndex 9 ∧
    printStatLowerIndex 10 = specRollingLowerIndex 10 := by
  refine ⟨?_, rfl, ?_, ?_, ?_⟩ <;> decide

/-- C10 (implicit): starting from the empty recorder, after every sequence of
`call()` events the success and denial deques have equal length, the lengths
never shrink as further events arrive, and every per-index access `printStat`
performs on `mRateLimitedCalls` while iterating over `mSuccessfullCalls` is
within bounds. -/
theorem api_counts_aligned (events : List (Bool × Nat)) :
    ((APIState.initial.run events).mSuccessfullCalls.length =
      (APIState.initial.run events).mRateLimitedCalls.length) ∧
    (∀ pre post, events = pre ++ post →
      (APIState.initial.run pre).mSuccessfullCalls.length ≤
        (APIState.initial.run events).mSuccessfullCalls.length) ∧
    (∀ i, i < (APIState.initial.run events).mSuccessfullCalls.length →
      i < (APIState.initial.run events).mRateLimitedCalls.length) := by
  obtain ⟨heq, -⟩ := run_lengths events APIState.initial rfl
  refine ⟨heq, ?_, fun i hi => by rwa [← heq]⟩
  intro pre post hsplit
  obtain ⟨heqpre, -⟩ := run_lengths pre APIState.initial rfl
  obtain ⟨-, hmono⟩ := run_lengths post (APIState.initial.run pre) heqpre
  rw [hsplit, APIState.run_append]
  exact hmono

/-- C10 witness: two events (one success in bucket 0, one denial in bucket 3). -/
theorem api_counts_aligned_witness :
    ([((true : Bool), (0 : Nat)), (false, 3)] =
      [((true : Bool), (0 : Nat))] ++ [((false : Bool), (3 : Nat))]) ∧
    (APIState.initial.run [((true : Bool), (0 : Nat))]).mSuccessfullCalls.length ≤
      (APIState.initial.run
        [((true : Bool), (0 : Nat)), (false, 3)]).mSuccessfullCalls.length ∧
    (0 : Nat) <
      (APIState.initial.run
        [((true : Bool), (0 : Nat)), (false, 3)]).mSuccessfullCalls.length ∧
    (0 : Nat) <
      (APIState.initial.run
        [((true : Bool), (0 : Nat)), (false, 3)]).mRateLimitedCalls.length :=
  ⟨rfl,
   (api_counts_aligned [(true, 0), (false, 3)]).2.1 [(true, 0)] [(false, 3)] rfl,
   by decide,
   (api_counts_aligned [(true, 0), (false, 3)]).2.2 0 (by decide)⟩
